import Mathlib

/-!
Shallow embedding of the Rotosolve gradient-free optimizer
(pennylane/optimize/rotosolve.py) and verification of its specification.

The parameter vector is a `List ℝ`; the objective is a function
`List ℝ → ℝ`.  The in-place numpy update `x[d] = θ` is modelled by
`List.set`, which is semantically faithful because every read of `x[d]`
in the source is preceded by a write of the value later read.
-/

open Real

namespace Rotosolve

/-- Two-argument arctangent, as computed by `np.arctan2(y, x)`:
the argument of the complex number `x + y i`, in `(-π, π]`. -/
noncomputable def atan2 (y x : ℝ) : ℝ := Complex.arg ⟨x, y⟩

/-- The one-sided wrap applied to the updated coordinate
(source lines 86-88): values at or below `-π` are shifted up by `2π`;
no correction is applied to any other value. -/
noncomputable def wrapLow (θ : ℝ) : ℝ := if θ ≤ -π then θ + 2 * π else θ

/-- The raw (pre-wrap) updated value of coordinate `d`:
`-π/2 - arctan2 (2·H₀ - H₊ - H₋) (H₊ - H₋)`, where the three objective
evaluations fix `x[d]` to `0`, `π/2`, `-π/2` (source lines 78-84). -/
noncomputable def rawUpdate (f : List ℝ → ℝ) (x : List ℝ) (d : ℕ) : ℝ :=
  let H_0 := f (x.set d 0)
  let H_p := f (x.set d (π / 2))
  let H_m := f (x.set d (-(π / 2)))
  let a := atan2 (2 * H_0 - H_p - H_m) (H_p - H_m)
  let raw := -(π / 2) - a
  raw

/-- The three argument vectors at which `_rotosolve` evaluates the
objective, in evaluation order. -/
noncomputable def subCalls (x : List ℝ) (d : ℕ) : List (List ℝ) :=
  [x.set d 0, x.set d (π / 2), x.set d (-(π / 2))]

/-- `RotosolveOptimizer._rotosolve`: one coordinate sub-step, returning
the vector with coordinate `d` replaced by the wrapped raw update. -/
noncomputable def rotosolveSub (f : List ℝ → ℝ) (x : List ℝ) (d : ℕ) : List ℝ :=
  x.set d (wrapLow (rawUpdate f x d))

/-- The body of `RotosolveOptimizer.step` after scalar normalization:
the loop `for d, _ in enumerate(x): x = self._rotosolve(objective_fn, x, d)`. -/
noncomputable def rotosolveStep (f : List ℝ → ℝ) (x : List ℝ) : List ℝ :=
  (List.range x.length).foldl (fun acc d => rotosolveSub f acc d) x

/-- `RotosolveOptimizer.step` with its input shape check: a scalar
argument (`np.ndim(x) == 0`) is first normalized to the one-element
vector `[x]`; a vector argument is processed as is. -/
noncomputable def step (f : List ℝ → ℝ) : ℝ ⊕ List ℝ → List ℝ
  | Sum.inl s => rotosolveStep f [s]
  | Sum.inr v => rotosolveStep f v

/-- Instrumented sweep: alongside the updated vector, collect the full
list of argument vectors passed to the objective during one `step`. -/
noncomputable def rotosolveStepTr (f : List ℝ → ℝ) (x : List ℝ) :
    List ℝ × List (List ℝ) :=
  (List.range x.length).foldl
    (fun acc d => (rotosolveSub f acc.1 d, acc.2 ++ subCalls acc.1 d)) (x, [])

/-- Sequential sweep written exactly as the specification describes it:
for `d` from `0` to `D-1` in order, apply the coordinate sub-step to the
current (already partially updated) vector. -/
noncomputable def specSweep (f : List ℝ → ℝ) (x : List ℝ) : ℕ → List ℝ
  | 0 => x
  | n + 1 => rotosolveSub f (specSweep f x n) n

/-- Exception-aware coordinate sub-step: the objective may fail, and any
failure short-circuits the computation at the evaluation that raised it
(Python exception propagation; the source installs no handler). -/
noncomputable def rotosolveSubE {ε : Type} (f : List ℝ → Except ε ℝ)
    (x : List ℝ) (d : ℕ) : Except ε (List ℝ) :=
  match f (x.set d 0) with
  | Except.error e => Except.error e
  | Except.ok H_0 =>
    match f (x.set d (π / 2)) with
    | Except.error e => Except.error e
    | Except.ok H_p =>
      match f (x.set d (-(π / 2))) with
      | Except.error e => Except.error e
      | Except.ok H_m =>
        Except.ok
          (x.set d (wrapLow (-(π / 2) - atan2 (2 * H_0 - H_p - H_m) (H_p - H_m))))

/-- Exception-aware sweep over a list of coordinate indices: sub-steps
run in order and the first failure aborts the remaining iterations. -/
noncomputable def sweepE {ε : Type} (f : List ℝ → Except ε ℝ) :
    List ℕ → List ℝ → Except ε (List ℝ)
  | [], v => Except.ok v
  | d :: ds, v =>
    match rotosolveSubE f v d with
    | Except.error e => Except.error e
    | Except.ok v2 => sweepE f ds v2

/-- Exception-aware `step` body: coordinate sub-steps run in index order
and the first failure aborts the whole call with that failure. -/
noncomputable def rotosolveStepE {ε : Type} (f : List ℝ → Except ε ℝ)
    (x : List ℝ) : Except ε (List ℝ) :=
  sweepE f (List.range x.length) x

lemma length_rotosolveSub (f : List ℝ → ℝ) (x : List ℝ) (d : ℕ) :
    (rotosolveSub f x d).length = x.length := by
  simp [rotosolveSub]

lemma length_foldl_rotosolveSub (f : List ℝ → ℝ) (ds : List ℕ) (x : List ℝ) :
    (ds.foldl (fun acc d => rotosolveSub f acc d) x).length = x.length := by
  induction ds generalizing x with
  | nil => rfl
  | cons d ds ih => simp [List.foldl_cons, ih, length_rotosolveSub]

lemma length_rotosolveStep (f : List ℝ → ℝ) (x : List ℝ) :
    (rotosolveStep f x).length = x.length := by
  simp [rotosolveStep, length_foldl_rotosolveSub]

lemma atan2_mem_Ioc (y x : ℝ) : atan2 y x ∈ Set.Ioc (-π) π :=
  Complex.arg_mem_Ioc _

/-- The wrapped raw update always lands in the half-open interval
`(-π, π]`, for any value the arctangent can produce. -/
lemma wrapLow_mem_Ioc {a : ℝ} (ha : a ∈ Set.Ioc (-π) π) :
    wrapLow (-(π / 2) - a) ∈ Set.Ioc (-π) π := by
  obtain ⟨ha1, ha2⟩ := ha
  have hpi : (0 : ℝ) < π := Real.pi_pos
  unfold wrapLow
  by_cases h : -(π / 2) - a ≤ -π
  · simp only [h, if_pos]
    constructor <;> [linarith; linarith]
  · simp only [h, if_neg, not_false_iff]
    push_neg at h
    constructor <;> [linarith; linarith]

lemma rawUpdate_eq (f : List ℝ → ℝ) (x : List ℝ) (d : ℕ) :
    rawUpdate f x d =
      -(π / 2) - atan2
        (2 * f (x.set d 0) - f (x.set d (π / 2)) - f (x.set d (-(π / 2))))
        (f (x.set d (π / 2)) - f (x.set d (-(π / 2)))) := rfl

lemma rawUpdate_wrapped_mem_Ioc (f : List ℝ → ℝ) (x : List ℝ) (d : ℕ) :
    wrapLow (rawUpdate f x d) ∈ Set.Ioc (-π) π := by
  rw [rawUpdate_eq]
  exact wrapLow_mem_Ioc (atan2_mem_Ioc _ _)

lemma getD_set_self {l : List ℝ} {i : ℕ} {a : ℝ} (h : i < l.length) :
    (l.set i a).getD i 0 = a := by
  simp [List.getD_eq_getElem?_getD, List.getElem?_set_self h]

lemma getD_set_ne {l : List ℝ} {i j : ℕ} {a : ℝ} (h : i ≠ j) :
    (l.set i a).getD j 0 = l.getD j 0 := by
  simp [List.getD_eq_getElem?_getD, List.getElem?_set_ne h]

lemma atan2_zero_of_neg {x : ℝ} (hx : x < 0) : atan2 0 x = π := by
  have h : (⟨x, 0⟩ : ℂ) = (x : ℂ) := by
    apply Complex.ext <;> simp
  rw [atan2, h, Complex.arg_ofReal_of_neg hx]

lemma atan2_zero_of_nonneg {x : ℝ} (hx : 0 ≤ x) : atan2 0 x = 0 := by
  have h : (⟨x, 0⟩ : ℂ) = (x : ℂ) := by
    apply Complex.ext <;> simp
  rw [atan2, h, Complex.arg_ofReal_of_nonneg hx]

/-- C9: for any three real evaluation results, the raw update
`-π/2 - atan2 (2·H₀ - H₊ - H₋) (H₊ - H₋)` lies in `[-3π/2, π/2]`, hence
never exceeds `π`; in particular no raw update of the optimizer exceeds
`π`, and the one-sided low wrap alone places the stored coordinate in
`(-π, π]`. -/
theorem rawUpdate_range (H_0 H_p H_m : ℝ) (f : List ℝ → ℝ) (x : List ℝ) (d : ℕ) :
    (-(π / 2) - atan2 (2 * H_0 - H_p - H_m) (H_p - H_m)) ∈
      Set.Icc (-(3 * π / 2)) (π / 2) ∧
    -(π / 2) - atan2 (2 * H_0 - H_p - H_m) (H_p - H_m) ≤ π ∧
    rawUpdate f x d ≤ π ∧
    wrapLow (rawUpdate f x d) ∈ Set.Ioc (-π) π := by
  have hpi : (0 : ℝ) < π := Real.pi_pos
  obtain ⟨h1, h2⟩ := atan2_mem_Ioc (2 * H_0 - H_p - H_m) (H_p - H_m)
  obtain ⟨h3, h4⟩ :=
    atan2_mem_Ioc
      (2 * f (x.set d 0) - f (x.set d (π / 2)) - f (x.set d (-(π / 2))))
      (f (x.set d (π / 2)) - f (x.set d (-(π / 2))))
  refine ⟨⟨by linarith, by linarith⟩, by linarith, ?_, rawUpdate_wrapped_mem_Ioc f x d⟩
  rw [rawUpdate_eq]
  linarith

/-- C6: the wrap correction of the coordinate sub-step is one-sided.
Applied to any value above `π`, the wrap rule of the source
(`if x[d] <= -np.pi: x[d] += 2*np.pi`) changes nothing and leaves the
value above `π`; the sub-step stores exactly the wrapped raw update, so
no correction at the upper boundary is ever performed. -/
theorem wrapLow_one_sided (θ : ℝ) (h : π < θ) :
    wrapLow θ = θ ∧ π < wrapLow θ ∧
    ∀ (f : List ℝ → ℝ) (x : List ℝ) (d : ℕ),
      rotosolveSub f x d = x.set d (wrapLow (rawUpdate f x d)) := by
  have hpi : (0 : ℝ) < π := Real.pi_pos
  have hne : ¬ θ ≤ -π := by linarith
  rw [wrapLow, if_neg hne]
  exact ⟨rfl, h, fun f x d => rfl⟩

theorem wrapLow_one_sided_witness : wrapLow 4 = 4 ∧ π < wrapLow 4 :=
  ⟨(wrapLow_one_sided 4 (by linarith [Real.pi_lt_d2])).1,
   (wrapLow_one_sided 4 (by linarith [Real.pi_lt_d2])).2.1⟩

/-- C5: the wrap branch of the coordinate sub-step.  If the raw update
is at most `-π`, the stored coordinate is the raw update plus `2π` and
that value lies in `(-π, π]`; otherwise the raw update is stored
unchanged. -/
theorem rotosolveSub_wrap_branch (f : List ℝ → ℝ) (x : List ℝ) (d : ℕ)
    (hd : d < x.length) :
    (rawUpdate f x d ≤ -π →
      (rotosolveSub f x d).getD d 0 = rawUpdate f x d + 2 * π ∧
      (rawUpdate f x d + 2 * π) ∈ Set.Ioc (-π) π) ∧
    (¬ rawUpdate f x d ≤ -π →
      (rotosolveSub f x d).getD d 0 = rawUpdate f x d) := by
  have hpi : (0 : ℝ) < π := Real.pi_pos
  obtain ⟨ha1, ha2⟩ :=
    atan2_mem_Ioc
      (2 * f (x.set d 0) - f (x.set d (π / 2)) - f (x.set d (-(π / 2))))
      (f (x.set d (π / 2)) - f (x.set d (-(π / 2))))
  have hlow : -(3 * π / 2) ≤ rawUpdate f x d := by
    rw [rawUpdate_eq]; linarith
  have hget : (rotosolveSub f x d).getD d 0 = wrapLow (rawUpdate f x d) :=
    getD_set_self hd
  constructor
  · intro hle
    rw [hget, wrapLow, if_pos hle]
    exact ⟨rfl, by constructor <;> linarith⟩
  · intro hgt
    rw [hget, wrapLow, if_neg hgt]

theorem rotosolveSub_wrap_branch_witness :
    (rotosolveSub (fun v => -Real.sin (v.getD 0 0)) [0] 0).getD 0 0 =
      rawUpdate (fun v => -Real.sin (v.getD 0 0)) [0] 0 + 2 * π ∧
    (rawUpdate (fun v => -Real.sin (v.getD 0 0)) [0] 0 + 2 * π) ∈ Set.Ioc (-π) π :=
  (rotosolveSub_wrap_branch (fun v => -Real.sin (v.getD 0 0)) [0] 0 (by norm_num)).1
    (by
      have harg : rawUpdate (fun v => -Real.sin (v.getD 0 0)) [0] 0 =
          -(π / 2) - atan2 0 (-2) := by
        rw [rawUpdate_eq]
        norm_num [Real.sin_pi_div_two]
      rw [harg, atan2_zero_of_neg (by norm_num : (-2 : ℝ) < 0)]
      linarith [Real.pi_pos])

/-- C1: the coordinate sub-step queries the objective at exactly three
argument vectors; in evaluation order these fix coordinate `d` to `0`,
`π/2`, `-π/2` while agreeing with the current vector everywhere else;
the update angle is `atan2 (2·H₀ - H₊ - H₋) (H₊ - H₋)` with exactly that
argument order, the raw new value of coordinate `d` is `-π/2` minus that
angle, and the sub-step stores the wrap of the raw value. -/
theorem rotosolveSub_evaluations (f : List ℝ → ℝ) (x : List ℝ) (d : ℕ)
    (hd : d < x.length) :
    (subCalls x d).length = 3 ∧
    (subCalls x d).map (fun p => p.getD d 0) = [0, π / 2, -(π / 2)] ∧
    (∀ p ∈ subCalls x d, ∀ i, i ≠ d → p.getD i 0 = x.getD i 0) ∧
    rawUpdate f x d =
      -(π / 2) - atan2
        (2 * f (x.set d 0) - f (x.set d (π / 2)) - f (x.set d (-(π / 2))))
        (f (x.set d (π / 2)) - f (x.set d (-(π / 2)))) ∧
    rotosolveSub f x d = x.set d (wrapLow (rawUpdate f x d)) := by
  refine ⟨rfl, ?_, ?_, rawUpdate_eq f x d, rfl⟩
  · simp only [subCalls, List.map_cons, List.map_nil]
    rw [getD_set_self hd, getD_set_self hd, getD_set_self hd]
  · intro p hp i hi
    have hdi : d ≠ i := Ne.symm hi
    simp only [subCalls, List.mem_cons, List.mem_singleton] at hp
    rcases hp with rfl | rfl | rfl | h
    · exact getD_set_ne hdi
    · exact getD_set_ne hdi
    · exact getD_set_ne hdi
    · cases h

theorem rotosolveSub_evaluations_witness :
    (subCalls [1] 0).map (fun p => p.getD 0 0) = [0, π / 2, -(π / 2)] ∧
    rotosolveSub (fun _ => 0) [1] 0 =
      [1].set 0 (wrapLow (rawUpdate (fun _ => 0) [1] 0)) :=
  ⟨(rotosolveSub_evaluations (fun _ => 0) [1] 0 (by norm_num)).2.1,
   (rotosolveSub_evaluations (fun _ => 0) [1] 0 (by norm_num)).2.2.2.2⟩

lemma trace_foldl_length (f : List ℝ → ℝ) (ds : List ℕ) (v : List ℝ)
    (t : List (List ℝ)) :
    ((ds.foldl (fun acc d => (rotosolveSub f acc.1 d, acc.2 ++ subCalls acc.1 d))
        (v, t)).2).length = t.length + 3 * ds.length := by
  induction ds generalizing v t with
  | nil => simp
  | cons d ds ih =>
    rw [List.foldl_cons, ih]
    simp [subCalls]
    ring

lemma trace_foldl_fst (f : List ℝ → ℝ) (ds : List ℕ) (v : List ℝ)
    (t : List (List ℝ)) :
    (ds.foldl (fun acc d => (rotosolveSub f acc.1 d, acc.2 ++ subCalls acc.1 d))
        (v, t)).1 = ds.foldl (fun acc d => rotosolveSub f acc d) v := by
  induction ds generalizing v t with
  | nil => rfl
  | cons d ds ih => rw [List.foldl_cons, List.foldl_cons, ih]

/-- C4: one `step` call on a `D`-dimensional vector evaluates the
objective exactly `3·D` times, and the instrumented sweep computes the
same updated vector as the plain one. -/
theorem step_evaluation_count (f : List ℝ → ℝ) (x : List ℝ) :
    (rotosolveStepTr f x).2.length = 3 * x.length ∧
    (rotosolveStepTr f x).1 = rotosolveStep f x := by
  constructor
  · rw [rotosolveStepTr, trace_foldl_length]
    simp
  · rw [rotosolveStepTr, rotosolveStep, trace_foldl_fst]

/-- C7: a scalar argument is normalized to the one-element vector and
then processed exactly like that vector; the result is the same
length-1 sequence, never un-wrapped back to a scalar. -/
theorem step_scalar_normalization (f : List ℝ → ℝ) (s : ℝ) :
    step f (Sum.inl s) = step f (Sum.inr [s]) ∧
    step f (Sum.inl s) = rotosolveStep f [s] ∧
    (step f (Sum.inl s)).length = 1 :=
  ⟨rfl, rfl, by simp [step, length_rotosolveStep]⟩

lemma set_congr_of_agree {x x' : List ℝ} {d : ℕ}
    (hlen : x.length = x'.length)
    (hagree : ∀ i, i ≠ d → x.getD i 0 = x'.getD i 0) (θ : ℝ) :
    x.set d θ = x'.set d θ := by
  apply List.ext_getElem?
  intro i
  by_cases hi : i = d
  · subst hi
    by_cases hil : i < x.length
    · rw [List.getElem?_set_self hil, List.getElem?_set_self (hlen ▸ hil)]
    · rw [List.set_eq_of_length_le (Nat.le_of_not_lt hil),
        List.set_eq_of_length_le (Nat.le_of_not_lt (hlen ▸ hil)),
        List.getElem?_eq_none (Nat.le_of_not_lt hil),
        List.getElem?_eq_none (Nat.le_of_not_lt (hlen ▸ hil))]
  · have hdi : d ≠ i := Ne.symm hi
    rw [List.getElem?_set_ne hdi, List.getElem?_set_ne hdi]
    have hg := hagree i hi
    by_cases hil : i < x.length
    · have hil' : i < x'.length := hlen ▸ hil
      rw [List.getElem?_eq_getElem hil, List.getElem?_eq_getElem hil']
      rw [List.getD_eq_getElem?_getD, List.getD_eq_getElem?_getD,
        List.getElem?_eq_getElem hil, List.getElem?_eq_getElem hil'] at hg
      simpa using hg
    · rw [List.getElem?_eq_none (Nat.le_of_not_lt hil),
        List.getElem?_eq_none (Nat.le_of_not_lt (hlen ▸ hil))]

/-- C10: the coordinate sub-step never reads the incoming value of the
coordinate it updates.  Two vectors of the same length that agree
everywhere except possibly at coordinate `d` produce identical
sub-step results. -/
theorem rotosolveSub_ignores_current_coord (f : List ℝ → ℝ)
    (x x' : List ℝ) (d : ℕ) (hlen : x.length = x'.length)
    (hagree : ∀ i, i ≠ d → x.getD i 0 = x'.getD i 0) :
    rotosolveSub f x d = rotosolveSub f x' d := by
  have hset := set_congr_of_agree hlen hagree
  have hraw : rawUpdate f x d = rawUpdate f x' d := by
    rw [rawUpdate_eq, rawUpdate_eq, hset 0, hset (π / 2), hset (-(π / 2))]
  rw [rotosolveSub, rotosolveSub, hraw, hset]

theorem rotosolveSub_ignores_current_coord_witness :
    rotosolveSub (fun v => v.getD 1 0) [1, 5] 0 =
      rotosolveSub (fun v => v.getD 1 0) [2, 5] 0 :=
  rotosolveSub_ignores_current_coord (fun v => v.getD 1 0) [1, 5] [2, 5] 0 rfl
    (by
      intro i hi
      cases i with
      | zero => exact absurd rfl hi
      | succ n => rfl)

lemma specSweep_eq_foldl (f : List ℝ → ℝ) (x : List ℝ) (n : ℕ) :
    (List.range n).foldl (fun acc d => rotosolveSub f acc d) x = specSweep f x n := by
  induction n with
  | zero => rfl
  | succ n ih => rw [List.range_succ, List.foldl_append, ih]; rfl

lemma length_specSweep (f : List ℝ → ℝ) (x : List ℝ) (n : ℕ) :
    (specSweep f x n).length = x.length := by
  induction n with
  | zero => rfl
  | succ n ih =>
    rw [show specSweep f x (n + 1) = rotosolveSub f (specSweep f x n) n from rfl,
      length_rotosolveSub, ih]

lemma specSweep_getD_mem (f : List ℝ → ℝ) (x : List ℝ) (n : ℕ) :
    ∀ i, i < n → n ≤ x.length → (specSweep f x n).getD i 0 ∈ Set.Ioc (-π) π := by
  induction n with
  | zero => intro i hi _; exact absurd hi (Nat.not_lt_zero i)
  | succ n ih =>
    intro i hi hn
    show (rotosolveSub f (specSweep f x n) n).getD i 0 ∈ Set.Ioc (-π) π
    by_cases h : i = n
    · subst h
      have hb : i < (specSweep f x i).length := by
        rw [length_specSweep]; omega
      rw [rotosolveSub, getD_set_self hb]
      exact rawUpdate_wrapped_mem_Ioc f _ i
    · rw [rotosolveSub, getD_set_ne (Ne.symm h)]
      exact ih i (by omega) (by omega)

/-- C2: one `step` call is the sequential sweep that applies the
coordinate sub-step once to each index `0, 1, ..., D-1` in that order,
each sub-step acting on the vector produced by the previous ones, and
every coordinate of the returned vector lies in `(-π, π]`. -/
theorem step_sequential_sweep_invariant (f : List ℝ → ℝ) (x : List ℝ) :
    rotosolveStep f x = specSweep f x x.length ∧
    (rotosolveStep f x).Forall (fun y => y ∈ Set.Ioc (-π) π) := by
  have h1 : rotosolveStep f x = specSweep f x x.length :=
    specSweep_eq_foldl f x x.length
  refine ⟨h1, ?_⟩
  rw [List.forall_iff_forall_mem]
  intro y hy
  rw [h1] at hy
  obtain ⟨i, hilen, rfl⟩ := List.mem_iff_getElem.mp hy
  have hix : i < x.length := by rwa [length_specSweep] at hilen
  have hmem := specSweep_getD_mem f x x.length i hix le_rfl
  simpa [List.getD_eq_getElem?_getD, List.getElem?_eq_getElem hilen] using hmem

lemma sweepE_of_ok {ε : Type} (f : List ℝ → Except ε ℝ) (g : List ℝ → ℝ)
    (hfg : ∀ v, f v = Except.ok (g v)) (ds : List ℕ) (v : List ℝ) :
    sweepE f ds v = Except.ok (ds.foldl (fun acc d => rotosolveSub g acc d) v) := by
  induction ds generalizing v with
  | nil => rfl
  | cons d ds ih =>
    have hsub : rotosolveSubE f v d = Except.ok (rotosolveSub g v d) := by
      rw [rotosolveSubE, hfg, hfg, hfg]
      rw [rotosolveSub, rawUpdate_eq]
    rw [sweepE, hsub, List.foldl_cons]
    exact ih (rotosolveSub g v d)

/-- C8: the optimizer installs no error handler.  If an evaluation of
the objective fails, the coordinate sub-step (and with it the whole
`step` call when the failure occurs at its first evaluation) returns
exactly that failure, unmodified and with no substitute result; and a
never-failing objective makes the exception-aware sweep agree with the
plain one. -/
theorem objective_error_propagates {ε : Type} (f : List ℝ → Except ε ℝ)
    (x : List ℝ) (d : ℕ) (e : ε) :
    (f (x.set d 0) = Except.error e → rotosolveSubE f x d = Except.error e) ∧
    (∀ H_0, f (x.set d 0) = Except.ok H_0 →
      f (x.set d (π / 2)) = Except.error e →
      rotosolveSubE f x d = Except.error e) ∧
    (∀ H_0 H_p, f (x.set d 0) = Except.ok H_0 →
      f (x.set d (π / 2)) = Except.ok H_p →
      f (x.set d (-(π / 2))) = Except.error e →
      rotosolveSubE f x d = Except.error e) ∧
    (∀ g : List ℝ → ℝ, (∀ v, f v = Except.ok (g v)) →
      rotosolveStepE f x = Except.ok (rotosolveStep g x)) ∧
    (0 < x.length → f (x.set 0 0) = Except.error e →
      rotosolveStepE f x = Except.error e) := by
  refine ⟨?_, ?_, ?_, ?_, ?_⟩
  · intro h0
    rw [rotosolveSubE, h0]
  · intro H_0 h0 hp
    rw [rotosolveSubE, h0, hp]
  · intro H_0 H_p h0 hp hm
    rw [rotosolveSubE, h0, hp, hm]
  · intro g hfg
    rw [rotosolveStepE, sweepE_of_ok f g hfg, rotosolveStep]
  · intro hx h0
    obtain ⟨n, hn⟩ : ∃ n, x.length = n + 1 :=
      ⟨x.length - 1, by omega⟩
    have hsub : rotosolveSubE f x 0 = Except.error e := by
      rw [rotosolveSubE, h0]
    rw [rotosolveStepE, hn, List.range_succ_eq_map, sweepE, hsub]

theorem objective_error_propagates_witness :
    rotosolveSubE (fun _ => Except.error 0) [1] 0 = Except.error (0 : ℕ) ∧
    rotosolveStepE (fun _ => Except.error 0) [1] = Except.error (0 : ℕ) ∧
    rotosolveStepE (fun v => (Except.ok (v.getD 0 0) : Except ℕ ℝ)) [1] =
      Except.ok (rotosolveStep (fun v => v.getD 0 0) [1]) :=
  ⟨(objective_error_propagates (fun _ => Except.error 0) [1] 0 0).1 rfl,
   (objective_error_propagates (fun _ => Except.error 0) [1] 0 0).2.2.2.2
     (by norm_num) rfl,
   (objective_error_propagates (fun v => (Except.ok (v.getD 0 0) : Except ℕ ℝ))
       [1] 0 0).2.2.2.1
     (fun v => v.getD 0 0) (fun v => rfl)⟩

lemma sin_wrapLow_add (t c : ℝ) :
    Real.sin (wrapLow t + c) = Real.sin (t + c) := by
  rw [wrapLow]
  by_cases h : t ≤ -π
  · rw [if_pos h, show t + 2 * π + c = t + c + 2 * π by ring, Real.sin_add_two_pi]
  · rw [if_neg h]

lemma atan2_cos_key (A c : ℝ) :
    A * Real.cos (c - atan2 (2 * A * Real.sin c) (2 * A * Real.cos c)) = |A| := by
  by_cases hA : A = 0
  · subst hA; simp
  · have hzne : (⟨2 * A * Real.cos c, 2 * A * Real.sin c⟩ : ℂ) ≠ 0 := by
      intro hzero
      rw [Complex.ext_iff] at hzero
      obtain ⟨hre, him⟩ := hzero
      simp only [Complex.zero_re, Complex.zero_im] at hre him
      have hcc : Real.cos c = 0 := by
        rcases mul_eq_zero.mp hre with h | h
        · rcases mul_eq_zero.mp h with h2 | h2
          · norm_num at h2
          · exact absurd h2 hA
        · exact h
      have hss : Real.sin c = 0 := by
        rcases mul_eq_zero.mp him with h | h
        · rcases mul_eq_zero.mp h with h2 | h2
          · norm_num at h2
          · exact absurd h2 hA
        · exact h
      have := Real.sin_sq_add_cos_sq c
      rw [hcc, hss] at this
      norm_num at this
    have habs : Complex.abs (⟨2 * A * Real.cos c, 2 * A * Real.sin c⟩ : ℂ) =
        2 * |A| := by
      rw [Complex.abs_apply, Complex.normSq_mk]
      have hsq : 2 * A * Real.cos c * (2 * A * Real.cos c) +
          2 * A * Real.sin c * (2 * A * Real.sin c) = (2 * |A|) ^ 2 := by
        have h1 := Real.sin_sq_add_cos_sq c
        have h2 : |A| ^ 2 = A ^ 2 := sq_abs A
        nlinarith [h1, h2]
      rw [hsq, Real.sqrt_sq (by positivity)]
    have hargeq : atan2 (2 * A * Real.sin c) (2 * A * Real.cos c) =
        Complex.arg (⟨2 * A * Real.cos c, 2 * A * Real.sin c⟩ : ℂ) := rfl
    have hcos : Real.cos (atan2 (2 * A * Real.sin c) (2 * A * Real.cos c)) =
        2 * A * Real.cos c / (2 * |A|) := by
      rw [hargeq, Complex.cos_arg hzne, habs]
    have hsin : Real.sin (atan2 (2 * A * Real.sin c) (2 * A * Real.cos c)) =
        2 * A * Real.sin c / (2 * |A|) := by
      rw [hargeq, Complex.sin_arg, habs]
    rw [Real.cos_sub, hcos, hsin]
    have h1 := Real.sin_sq_add_cos_sq c
    have h2 : |A| ^ 2 = A ^ 2 := sq_abs A
    have h3 : |A| ≠ 0 := abs_ne_zero.mpr hA
    field_simp
    nlinarith [h1, h2]

/-- C3: if the objective restricted to coordinate `d` is exactly the
sinusoid `θ ↦ A·sin(θ+φ)+B`, one coordinate sub-step moves coordinate
`d` to a global minimizer of that sinusoid: its value there is at most
its value at any other angle. -/
theorem rotosolveSub_minimizes_sinusoid (f : List ℝ → ℝ) (x : List ℝ)
    (d : ℕ) (A c B : ℝ) (hd : d < x.length)
    (hf : ∀ θ : ℝ, f (x.set d θ) = A * Real.sin (θ + c) + B) (θ : ℝ) :
    A * Real.sin ((rotosolveSub f x d).getD d 0 + c) + B ≤
      A * Real.sin (θ + c) + B := by
  have hval : (rotosolveSub f x d).getD d 0 = wrapLow (rawUpdate f x d) :=
    getD_set_self hd
  have hs1 : Real.sin (π / 2 + c) = Real.cos c := by
    rw [Real.sin_add]; simp
  have hs2 : Real.sin (-(π / 2) + c) = -Real.cos c := by
    rw [Real.sin_add]; simp
  have hraw : rawUpdate f x d =
      -(π / 2) - atan2 (2 * A * Real.sin c) (2 * A * Real.cos c) := by
    rw [rawUpdate_eq, hf 0, hf (π / 2), hf (-(π / 2)), zero_add, hs1, hs2]
    rw [show 2 * (A * Real.sin c + B) - (A * Real.cos c + B) -
        (A * -Real.cos c + B) = 2 * A * Real.sin c by ring,
      show A * Real.cos c + B - (A * -Real.cos c + B) = 2 * A * Real.cos c by ring]
  have hmin : A * Real.sin ((rotosolveSub f x d).getD d 0 + c) = -|A| := by
    rw [hval, sin_wrapLow_add, hraw]
    rw [show -(π / 2) - atan2 (2 * A * Real.sin c) (2 * A * Real.cos c) + c =
        (c - atan2 (2 * A * Real.sin c) (2 * A * Real.cos c)) - π / 2 by ring]
    rw [Real.sin_sub]
    simp only [Real.sin_pi_div_two, Real.cos_pi_div_two]
    rw [show Real.sin (c - atan2 (2 * A * Real.sin c) (2 * A * Real.cos c)) * 0 -
        Real.cos (c - atan2 (2 * A * Real.sin c) (2 * A * Real.cos c)) * 1 =
        -(Real.cos (c - atan2 (2 * A * Real.sin c) (2 * A * Real.cos c))) by ring]
    rw [mul_neg, atan2_cos_key]
  have hbound : -|A| ≤ A * Real.sin (θ + c) := by
    have h1 : |A * Real.sin (θ + c)| ≤ |A| := by
      rw [abs_mul]
      calc |A| * |Real.sin (θ + c)| ≤ |A| * 1 :=
            mul_le_mul_of_nonneg_left (Real.abs_sin_le_one _) (abs_nonneg A)
        _ = |A| := mul_one _
    linarith [neg_abs_le (A * Real.sin (θ + c))]
  linarith [hmin, hbound]

lemma step_sin_example :
    rotosolveStep (fun v => Real.sin (v.getD 0 0)) [0] = [-(π / 2)] := by
  have hraw : rawUpdate (fun v => Real.sin (v.getD 0 0)) [0] 0 = -(π / 2) := by
    have h : rawUpdate (fun v => Real.sin (v.getD 0 0)) [0] 0 =
        -(π / 2) - atan2 0 2 := by
      rw [rawUpdate_eq]
      norm_num [Real.sin_pi_div_two]
    rw [h, atan2_zero_of_nonneg (by norm_num : (0 : ℝ) ≤ 2)]
    ring
  have hwrap : wrapLow (-(π / 2)) = -(π / 2) := by
    rw [wrapLow, if_neg]
    push_neg
    linarith [Real.pi_pos]
  have hstep : rotosolveStep (fun v => Real.sin (v.getD 0 0)) [0] =
      rotosolveSub (fun v => Real.sin (v.getD 0 0)) [0] 0 := rfl
  rw [hstep, rotosolveSub, hraw, hwrap]
  rfl

theorem rotosolveSub_minimizes_sinusoid_witness :
    1 * Real.sin ((rotosolveSub (fun v => Real.sin (v.getD 0 0)) [0] 0).getD 0 0
        + 0) + 0 ≤ 1 * Real.sin (0 + 0) + 0 :=
  rotosolveSub_minimizes_sinusoid (fun v => Real.sin (v.getD 0 0)) [0] 0 1 0 0
    (by norm_num) (by intro θ; simp) 0

end Rotosolve
